import Mathlib

/-!
Verification development for the make-ten solution-search engine and its
web presentation layer.

The presentation layer (the `Home` page component) is embedded from
`src/pages/index.tsx`.  The search engine itself (the Rust `calculator`
crate) is not part of the visible sources, so its data model and
operations are modelled from the specification (spec.md sections 2-4 and 6):
each such definition carries a doc comment starting with
`Modelled from the spec:`.
-/

namespace MakeTen

/-- Modelled from the spec: the missing Rust engine's `Operator` type,
one of Add, Subtract, Multiply, Divide (spec section 3). -/
inductive Operator where
  | add
  | subtract
  | multiply
  | divide
deriving DecidableEq

/-- Modelled from the spec: the list of all four operators, used when
assigning operators to the internal nodes of a shape (spec section 4.3). -/
def Operator.all : List Operator :=
  [Operator.add, Operator.subtract, Operator.multiply, Operator.divide]

/-- Modelled from the spec: the missing engine's `ExpressionNode` binary
tree — a leaf holding one digit, or an internal node holding an operator
and two children (spec section 3). -/
inductive ExpressionNode where
  | leaf (d : ℕ)
  | internal (op : Operator) (l r : ExpressionNode)
deriving DecidableEq

/-- Modelled from the spec: the missing engine's exact rational `Value`
(numerator, nonzero denominator).  Lowest-terms reduction is irrelevant to
the verified properties because equality with the integer target is tested
by exact cross-multiplication, which agrees with lowest-terms equality. -/
structure Value where
  num : ℤ
  den : ℤ
  den_ne : den ≠ 0

/-- Modelled from the spec: exact rational addition (spec section 4.1). -/
def Value.add (a b : Value) : Value :=
  ⟨a.num * b.den + b.num * a.den, a.den * b.den, mul_ne_zero a.den_ne b.den_ne⟩

/-- Modelled from the spec: exact rational subtraction (spec section 4.1). -/
def Value.sub (a b : Value) : Value :=
  ⟨a.num * b.den - b.num * a.den, a.den * b.den, mul_ne_zero a.den_ne b.den_ne⟩

/-- Modelled from the spec: exact rational multiplication (spec section 4.1). -/
def Value.mul (a b : Value) : Value :=
  ⟨a.num * b.num, a.den * b.den, mul_ne_zero a.den_ne b.den_ne⟩

/-- Modelled from the spec: exact rational division; only invoked when the
divisor is nonzero (spec section 4.1). -/
def Value.div (a b : Value) (h : b.num ≠ 0) : Value :=
  ⟨a.num * b.den, a.den * b.num, mul_ne_zero a.den_ne h⟩

/-- The mathematical rational denoted by a `Value`. -/
def Value.toRat (v : Value) : ℚ := (v.num : ℚ) / (v.den : ℚ)

/-- Modelled from the spec: the missing engine's bottom-up evaluator,
returning `none` when a division by zero is encountered so that the
candidate is dropped (spec section 4.4). -/
def evalNode : ExpressionNode → Option Value
  | .leaf d => some ⟨(d : ℤ), 1, one_ne_zero⟩
  | .internal op l r =>
    match evalNode l, evalNode r with
    | some a, some b =>
      match op with
      | .add => some (a.add b)
      | .subtract => some (a.sub b)
      | .multiply => some (a.mul b)
      | .divide => if h : b.num = 0 then none else some (a.div b h)
    | _, _ => none

/-- Reference evaluator over the mathematical rationals, used to state
exactness: it performs textbook exact rational arithmetic, with division
by zero yielding `none`. -/
def evalRat : ExpressionNode → Option ℚ
  | .leaf d => some (d : ℚ)
  | .internal op l r =>
    match evalRat l, evalRat r with
    | some a, some b =>
      match op with
      | .add => some (a + b)
      | .subtract => some (a - b)
      | .multiply => some (a * b)
      | .divide => if b = 0 then none else some (a / b)
    | _, _ => none

/-- The digit leaves of a tree, left to right. -/
def leaves : ExpressionNode → List ℕ
  | .leaf d => [d]
  | .internal _ l r => leaves l ++ leaves r

/-- The character rendering a single decimal digit. -/
def digitChar (d : ℕ) : Char := Char.ofNat (48 + d)

/-- The character rendering an operator. -/
def opChar : Operator → Char
  | .add => '+'
  | .subtract => '-'
  | .multiply => '*'
  | .divide => '/'

/-- Modelled from the spec: operator precedence, Add/Subtract low,
Multiply/Divide high (spec section 3). -/
def Operator.precedence : Operator → ℕ
  | .add | .subtract => 1
  | .multiply | .divide => 2

/-- Precedence of a whole subtree: a leaf binds tightest. -/
def nodePrecedence : ExpressionNode → ℕ
  | .leaf _ => 3
  | .internal op _ _ => op.precedence

/-- Modelled from the spec: the missing engine's formatter as a character
list — conventional two-level precedence with left-associativity, a child
parenthesised exactly when precedence would otherwise regroup it
(spec sections 4.5 and 4.7). -/
def renderChars : ExpressionNode → List Char
  | .leaf d => [digitChar d]
  | .internal op l r =>
    let ls := if nodePrecedence l < op.precedence
      then '(' :: renderChars l ++ [')'] else renderChars l
    let rs := if nodePrecedence r ≤ op.precedence
      then '(' :: renderChars r ++ [')'] else renderChars r
    ls ++ ' ' :: opChar op :: ' ' :: rs

/-- Modelled from the spec: the canonical string of a tree, which is both
the user-visible output and the deduplication key (spec section 4.5). -/
def canonicalString (e : ExpressionNode) : String := String.mk (renderChars e)

/-- The digit characters appearing in a string, in order. -/
def digitChars (s : String) : List Char := s.data.filter Char.isDigit

/-- Modelled from the spec: the complexity score of a rendered solution —
one point per operator, one extra point per Multiply/Divide, one point per
explicit parenthesis pair (spec section 4.6). -/
def complexityScore (s : String) : ℕ :=
  s.data.countP (fun c => c = '+' ∨ c = '-' ∨ c = '*' ∨ c = '/')
    + s.data.countP (fun c => c = '*' ∨ c = '/')
    + s.data.countP (fun c => c = '(')

/-- Lexicographic comparison of character lists by code point. -/
def lexLe : List Char → List Char → Bool
  | [], _ => true
  | _ :: _, [] => false
  | a :: as, b :: bs => if a = b then lexLe as bs else decide (a < b)

/-- Modelled from the spec: the final ordering on solution strings —
ascending complexity score, ties broken by ascending lexicographic order
of the canonical string (spec section 4.6). -/
def solutionLe (a b : String) : Prop :=
  complexityScore a < complexityScore b ∨
    (complexityScore a = complexityScore b ∧ lexLe a.data b.data = true)

instance : DecidableRel solutionLe := fun a b => by
  unfold solutionLe
  infer_instance

/-- All ways to insert an element into a list. -/
def insertEverywhere (a : ℕ) : List ℕ → List (List ℕ)
  | [] => [[a]]
  | b :: bs => (a :: b :: bs) :: (insertEverywhere a bs).map (b :: ·)

/-- Modelled from the spec: the missing engine's permutation enumerator
produces the orderings of the input digit multiset; duplicates are removed
afterwards so each distinct ordering occurs once (spec section 4.2). -/
def permsOf : List ℕ → List (List ℕ)
  | [] => [[]]
  | a :: as => (permsOf as).flatMap (insertEverywhere a)

/-- Modelled from the spec: the missing engine's shape-and-operator
enumerator — every split of the digit ordering into a left and right
segment, every pair of subtrees over the segments, every operator at the
root (spec section 4.3).  The fuel argument (instantiated with the list
length) makes the recursion structural. -/
def buildTreesFuel : ℕ → List ℕ → List ExpressionNode
  | _, [] => []
  | _, [d] => [ExpressionNode.leaf d]
  | 0, _ :: _ :: _ => []
  | fuel + 1, d0 :: d1 :: ds =>
    (List.range (ds.length + 1)).flatMap fun k =>
      (buildTreesFuel fuel ((d0 :: d1 :: ds).take (k + 1))).flatMap fun lt =>
        (buildTreesFuel fuel ((d0 :: d1 :: ds).drop (k + 1))).flatMap fun rt =>
          Operator.all.map fun op => ExpressionNode.internal op lt rt

/-- All expression trees over a fixed digit ordering. -/
def buildTrees (l : List ℕ) : List ExpressionNode := buildTreesFuel l.length l

/-- Modelled from the spec: every candidate tree over every distinct
ordering of the input digits (spec sections 4.2 and 4.3). -/
def allTrees (digits : List ℕ) : List ExpressionNode :=
  ((permsOf digits).dedup).flatMap buildTrees

/-- Modelled from the spec: the candidates whose exact value equals the
integer target — the equality test is exact cross-multiplication, never
approximate (spec sections 4.1 and 4.4). -/
def validTrees (digits : List ℕ) (target : ℤ) : List ExpressionNode :=
  (allTrees digits).filter fun e =>
    match evalNode e with
    | some v => decide (v.num = target * v.den)
    | none => false

/-- Modelled from the spec: the missing engine's entry point `solve` —
enumerate, evaluate, filter on the target, render, deduplicate by
canonical string, and sort by complexity score with lexicographic
tie-break (spec sections 2 and 6). -/
def solve (digits : List ℕ) (target : ℤ) : List String :=
  List.insertionSort solutionLe
    (((validTrees digits target).map canonicalString).dedup)

/-- Modelled from the spec: a candidate contains a division whose right
operand evaluates to exactly zero (spec sections 4.4 and 8). -/
def hasDivByZero : ExpressionNode → Bool
  | .leaf _ => false
  | .internal op l r =>
    hasDivByZero l || hasDivByZero r ||
      (decide (op = Operator.divide) &&
        (match evalNode r with
          | some v => decide (v.num = 0)
          | none => false))

lemma Value.toRat_den_ne (v : Value) : (v.den : ℚ) ≠ 0 :=
  Int.cast_ne_zero.mpr v.den_ne

lemma Value.toRat_add (a b : Value) : (a.add b).toRat = a.toRat + b.toRat := by
  unfold Value.add Value.toRat
  have ha := a.toRat_den_ne
  have hb := b.toRat_den_ne
  push_cast
  field_simp

lemma Value.toRat_sub (a b : Value) : (a.sub b).toRat = a.toRat - b.toRat := by
  unfold Value.sub Value.toRat
  have ha := a.toRat_den_ne
  have hb := b.toRat_den_ne
  push_cast
  field_simp
  ring

lemma Value.toRat_mul (a b : Value) : (a.mul b).toRat = a.toRat * b.toRat := by
  unfold Value.mul Value.toRat
  have ha := a.toRat_den_ne
  have hb := b.toRat_den_ne
  push_cast
  field_simp

lemma Value.toRat_div (a b : Value) (h : b.num ≠ 0) :
    (a.div b h).toRat = a.toRat / b.toRat := by
  unfold Value.div Value.toRat
  have ha := a.toRat_den_ne
  have hb := b.toRat_den_ne
  have hbn : (b.num : ℚ) ≠ 0 := Int.cast_ne_zero.mpr h
  push_cast
  field_simp

lemma Value.toRat_eq_zero_iff (v : Value) : v.toRat = 0 ↔ v.num = 0 := by
  unfold Value.toRat
  rw [div_eq_zero_iff]
  have := v.toRat_den_ne
  simp [this]

lemma Value.toRat_eq_int {v : Value} {t : ℤ} (h : v.num = t * v.den) :
    v.toRat = (t : ℚ) := by
  have hd := v.toRat_den_ne
  rw [Value.toRat, h]
  push_cast
  field_simp

/-- The engine evaluator computes exactly the mathematical rational
evaluation. -/
lemma evalRat_eq_evalNode : ∀ e : ExpressionNode,
    evalRat e = (evalNode e).map Value.toRat := by
  intro e
  induction e with
  | leaf d => simp [evalRat, evalNode, Value.toRat]
  | internal op l r ihl ihr =>
    cases hl : evalNode l with
    | none => simp [evalRat, evalNode, hl, ihl, ihr]
    | some a =>
      cases hr : evalNode r with
      | none => simp [evalRat, evalNode, hl, hr, ihl, ihr]
      | some b =>
        cases op with
        | add => simp [evalRat, evalNode, hl, hr, ihl, ihr, Value.toRat_add]
        | subtract => simp [evalRat, evalNode, hl, hr, ihl, ihr, Value.toRat_sub]
        | multiply => simp [evalRat, evalNode, hl, hr, ihl, ihr, Value.toRat_mul]
        | divide =>
          by_cases hz : b.num = 0
          · have : b.toRat = 0 := b.toRat_eq_zero_iff.mpr hz
            simp [evalRat, evalNode, hl, hr, ihl, ihr, hz, this]
          · have : ¬ b.toRat = 0 := fun hc => hz (b.toRat_eq_zero_iff.mp hc)
            simp [evalRat, evalNode, hl, hr, ihl, ihr, hz, this, Value.toRat_div]

lemma evalNode_eq_none_of_hasDivByZero : ∀ e : ExpressionNode,
    hasDivByZero e = true → evalNode e = none := by
  intro e
  induction e with
  | leaf d => intro h; simp [hasDivByZero] at h
  | internal op l r ihl ihr =>
    intro h
    simp only [hasDivByZero, Bool.or_eq_true, Bool.and_eq_true,
      decide_eq_true_eq] at h
    rcases h with (hl | hr) | ⟨hop, hz⟩
    · simp [evalNode, ihl hl]
    · cases hel : evalNode l <;> simp [evalNode, hel, ihr hr]
    · subst hop
      cases her : evalNode r with
      | none => cases hel : evalNode l <;> simp [evalNode, hel, her]
      | some v =>
        rw [her] at hz
        simp only [decide_eq_true_eq] at hz
        cases hel : evalNode l <;> simp [evalNode, hel, her, hz]

lemma leaves_of_mem_buildTreesFuel : ∀ (fuel : ℕ) (l : List ℕ)
    (t : ExpressionNode), t ∈ buildTreesFuel fuel l → leaves t = l := by
  intro fuel
  induction fuel with
  | zero =>
    intro l t ht
    match l with
    | [] => simp [buildTreesFuel] at ht
    | [d] =>
      simp only [buildTreesFuel, List.mem_singleton] at ht
      subst ht
      rfl
    | _ :: _ :: _ => simp [buildTreesFuel] at ht
  | succ fuel ih =>
    intro l t ht
    match l with
    | [] => simp [buildTreesFuel] at ht
    | [d] =>
      simp only [buildTreesFuel, List.mem_singleton] at ht
      subst ht
      rfl
    | d0 :: d1 :: ds =>
      simp only [buildTreesFuel, List.mem_flatMap, List.mem_map,
        List.mem_range] at ht
      obtain ⟨k, -, lt', hlt, rt, hrt, op, -, rfl⟩ := ht
      show leaves lt' ++ leaves rt = d0 :: d1 :: ds
      rw [ih _ _ hlt, ih _ _ hrt, List.take_append_drop]

lemma perm_of_mem_insertEverywhere : ∀ (a : ℕ) (l p : List ℕ),
    p ∈ insertEverywhere a l → p.Perm (a :: l) := by
  intro a l
  induction l with
  | nil =>
    intro p hp
    simp only [insertEverywhere, List.mem_singleton] at hp
    subst hp
    exact List.Perm.refl _
  | cons b bs ih =>
    intro p hp
    simp only [insertEverywhere, List.mem_cons, List.mem_map] at hp
    rcases hp with rfl | ⟨q, hq, rfl⟩
    · exact List.Perm.refl _
    · exact (List.Perm.cons b (ih q hq)).trans (List.Perm.swap a b bs)

lemma perm_of_mem_permsOf : ∀ (l p : List ℕ), p ∈ permsOf l → p.Perm l := by
  intro l
  induction l with
  | nil =>
    intro p hp
    simp only [permsOf, List.mem_singleton] at hp
    subst hp
    exact List.Perm.refl _
  | cons a as ih =>
    intro p hp
    simp only [permsOf, List.mem_flatMap] at hp
    obtain ⟨q, hq, hpq⟩ := hp
    exact (perm_of_mem_insertEverywhere a q p hpq).trans
      (List.Perm.cons a (ih q hq))

lemma isDigit_digitChar (d : ℕ) (hd : d ≤ 9) : (digitChar d).isDigit = true := by
  interval_cases d <;> decide

lemma filter_isDigit_renderChars : ∀ e : ExpressionNode,
    (∀ x ∈ leaves e, x ≤ 9) →
    (renderChars e).filter Char.isDigit = (leaves e).map digitChar := by
  intro e
  induction e with
  | leaf d =>
    intro h
    have hd : d ≤ 9 := h d (by simp [leaves])
    simp [renderChars, leaves, List.filter, isDigit_digitChar d hd]
  | internal op l r ihl ihr =>
    intro h
    have hl := ihl fun x hx => h x (by simp [leaves, hx])
    have hr := ihr fun x hx => h x (by simp [leaves, hx])
    have hsp : Char.isDigit ' ' = false := rfl
    have hop : Char.isDigit (opChar op) = false := by cases op <;> rfl
    have hlp : Char.isDigit '(' = false := rfl
    have hrp : Char.isDigit ')' = false := rfl
    by_cases c1 : nodePrecedence l < op.precedence <;>
      by_cases c2 : nodePrecedence r ≤ op.precedence <;>
        simp [renderChars, leaves, c1, c2, List.filter_append, List.filter_cons,
          hsp, hop, hlp, hrp, hl, hr]

lemma lexLe_cons_iff (a b : Char) (as bs : List Char) :
    lexLe (a :: as) (b :: bs) = true ↔
      (a = b ∧ lexLe as bs = true) ∨ (a ≠ b ∧ a < b) := by
  by_cases h : a = b <;> simp [lexLe, h]

lemma lexLe_total : ∀ x y : List Char, lexLe x y = true ∨ lexLe y x = true := by
  intro x
  induction x with
  | nil => intro y; left; rfl
  | cons a as ih =>
    intro y
    cases y with
    | nil => right; rfl
    | cons b bs =>
      by_cases hab : a = b
      · subst hab
        rcases ih bs with h | h
        · left; exact (lexLe_cons_iff _ _ _ _).mpr (Or.inl ⟨rfl, h⟩)
        · right; exact (lexLe_cons_iff _ _ _ _).mpr (Or.inl ⟨rfl, h⟩)
      · rcases lt_trichotomy a b with hlt | heq | hgt
        · left; exact (lexLe_cons_iff _ _ _ _).mpr (Or.inr ⟨hab, hlt⟩)
        · exact absurd heq hab
        · right
          exact (lexLe_cons_iff _ _ _ _).mpr
            (Or.inr ⟨fun hba => hab hba.symm, hgt⟩)

lemma lexLe_trans : ∀ x y z : List Char,
    lexLe x y = true → lexLe y z = true → lexLe x z = true := by
  intro x
  induction x with
  | nil => intro y z h1 h2; rfl
  | cons a as ih =>
    intro y z h1 h2
    cases y with
    | nil => simp [lexLe] at h1
    | cons b bs =>
      cases z with
      | nil => simp [lexLe] at h2
      | cons c cs =>
        rcases (lexLe_cons_iff _ _ _ _).mp h1 with ⟨rfl, hab⟩ | ⟨hab, hab'⟩ <;>
          rcases (lexLe_cons_iff _ _ _ _).mp h2 with ⟨rfl, hbc⟩ | ⟨hbc, hbc'⟩
        · exact (lexLe_cons_iff _ _ _ _).mpr (Or.inl ⟨rfl, ih bs cs hab hbc⟩)
        · exact (lexLe_cons_iff _ _ _ _).mpr (Or.inr ⟨hbc, hbc'⟩)
        · exact (lexLe_cons_iff _ _ _ _).mpr (Or.inr ⟨hab, hab'⟩)
        · have hac : a < c := hab'.trans hbc'
          exact (lexLe_cons_iff _ _ _ _).mpr (Or.inr ⟨ne_of_lt hac, hac⟩)

instance : IsTotal String solutionLe := by
  constructor
  intro a b
  rcases Nat.lt_trichotomy (complexityScore a) (complexityScore b) with h | h | h
  · exact Or.inl (Or.inl h)
  · rcases lexLe_total a.data b.data with hl | hl
    · exact Or.inl (Or.inr ⟨h, hl⟩)
    · exact Or.inr (Or.inr ⟨h.symm, hl⟩)
  · exact Or.inr (Or.inl h)

instance : IsTrans String solutionLe := by
  constructor
  intro a b c hab hbc
  rcases hab with h1 | ⟨h1, l1⟩ <;> rcases hbc with h2 | ⟨h2, l2⟩
  · exact Or.inl (h1.trans h2)
  · exact Or.inl (h2 ▸ h1)
  · exact Or.inl (h1 ▸ h2)
  · exact Or.inr ⟨h1.trans h2, lexLe_trans _ _ _ l1 l2⟩

lemma exists_tree_of_mem_solve {digits : List ℕ} {target : ℤ} {s : String}
    (hs : s ∈ solve digits target) :
    ∃ e, e ∈ validTrees digits target ∧ canonicalString e = s := by
  unfold solve at hs
  have h1 : s ∈ ((validTrees digits target).map canonicalString).dedup :=
    ((List.perm_insertionSort solutionLe _).mem_iff).mp hs
  obtain ⟨e, he, hfe⟩ := List.mem_map.mp (List.mem_dedup.mp h1)
  exact ⟨e, he, hfe⟩

lemma eval_of_mem_validTrees {digits : List ℕ} {target : ℤ}
    {e : ExpressionNode} (he : e ∈ validTrees digits target) :
    e ∈ allTrees digits ∧ ∃ v, evalNode e = some v ∧ v.num = target * v.den := by
  unfold validTrees at he
  have h := List.mem_filter.mp he
  refine ⟨h.1, ?_⟩
  rcases hv : evalNode e with - | v
  · rw [hv] at h
    simp at h
  · rw [hv] at h
    exact ⟨v, rfl, of_decide_eq_true h.2⟩

lemma leaves_perm_of_mem_allTrees {digits : List ℕ} {e : ExpressionNode}
    (he : e ∈ allTrees digits) : (leaves e).Perm digits := by
  unfold allTrees at he
  obtain ⟨p, hp, hep⟩ := List.mem_flatMap.mp he
  have hp' : p ∈ permsOf digits := List.mem_dedup.mp hp
  have hl : leaves e = p := leaves_of_mem_buildTreesFuel p.length p e hep
  exact hl ▸ perm_of_mem_permsOf digits p hp'

/-- C1: every solution string returned by `solve` is the canonical
rendering of a candidate expression whose evaluation under exact rational
arithmetic is precisely the integer target — never a merely
approximately-equal value. -/
theorem solve_exactness (digits : List ℕ) (target : ℤ) (s : String)
    (hs : s ∈ solve digits target) :
    ∃ e : ExpressionNode,
      canonicalString e = s ∧ evalRat e = some ((target : ℚ)) := by
  obtain ⟨e, he, hfe⟩ := exists_tree_of_mem_solve hs
  obtain ⟨-, v, hv, hnum⟩ := eval_of_mem_validTrees he
  refine ⟨e, hfe, ?_⟩
  rw [evalRat_eq_evalNode, hv, Option.map_some']
  exact congrArg some (Value.toRat_eq_int hnum)

theorem solve_exactness_witness :
    ("8 + 2" ∈ solve [8, 2] 10) ∧
      ∃ e : ExpressionNode,
        canonicalString e = "8 + 2" ∧ evalRat e = some (((10 : ℤ) : ℚ)) :=
  ⟨by decide, solve_exactness [8, 2] 10 "8 + 2" (by decide)⟩

/-- C2: every solution string returned by `solve` contains exactly the
input digit multiset: its digit characters are a permutation of the
rendered input digits. -/
theorem solve_digit_conservation (digits : List ℕ) (target : ℤ) (s : String)
    (hdig : ∀ x ∈ digits, x ≤ 9) (hs : s ∈ solve digits target) :
    (digitChars s).Perm (digits.map digitChar) := by
  obtain ⟨e, he, hfe⟩ := exists_tree_of_mem_solve hs
  have hall := (eval_of_mem_validTrees he).1
  have hperm := leaves_perm_of_mem_allTrees hall
  have hle : ∀ x ∈ leaves e, x ≤ 9 := fun x hx =>
    hdig x (hperm.mem_iff.mp hx)
  subst hfe
  show ((String.mk (renderChars e)).data.filter Char.isDigit).Perm _
  rw [show (String.mk (renderChars e)).data = renderChars e from rfl,
    filter_isDigit_renderChars e hle]
  exact hperm.map digitChar

theorem solve_digit_conservation_witness :
    (∀ x ∈ ([8, 2] : List ℕ), x ≤ 9) ∧ ("8 + 2" ∈ solve [8, 2] 10) ∧
      (digitChars "8 + 2").Perm (([8, 2] : List ℕ).map digitChar) :=
  ⟨by decide, by decide,
    solve_digit_conservation [8, 2] 10 "8 + 2" (by decide) (by decide)⟩

/-- C3: the output of `solve` is sorted by the ordering of spec section
4.6 — non-decreasing complexity score (operator count plus one per
Multiply/Divide plus one per parenthesis pair of the canonical rendering),
with ties broken by ascending lexicographic order of the canonical
string. -/
theorem solve_ordering (digits : List ℕ) (target : ℤ) :
    List.Sorted solutionLe (solve digits target) := by
  unfold solve
  exact List.sorted_insertionSort solutionLe _

/-- C4: no canonical string appears twice in the output of `solve`, and
every valid candidate's canonical string does appear — each semantically
distinct expression (identified with its canonical string) is reported
exactly once. -/
theorem solve_no_duplicates (digits : List ℕ) (target : ℤ) :
    (solve digits target).Nodup ∧
      ∀ e ∈ validTrees digits target,
        canonicalString e ∈ solve digits target := by
  constructor
  · exact ((List.perm_insertionSort solutionLe _).nodup_iff).mpr
      (List.nodup_dedup _)
  · intro e he
    unfold solve
    exact ((List.perm_insertionSort solutionLe _).mem_iff).mpr
      (List.mem_dedup.mpr (List.mem_map_of_mem _ he))

theorem solve_no_duplicates_witness :
    (ExpressionNode.internal Operator.add (.leaf 8) (.leaf 2) ∈
        validTrees [8, 2] 10) ∧
      canonicalString (ExpressionNode.internal Operator.add (.leaf 8)
        (.leaf 2)) ∈ solve [8, 2] 10 :=
  ⟨by decide, (solve_no_duplicates [8, 2] 10).2 _ (by decide)⟩

/-- C5: `solve` is a pure function of its arguments — two calls with the
same digit sequence and target return byte-identical output sequences. -/
theorem solve_deterministic (digits : List ℕ) (target : ℤ) :
    solve digits target = solve digits target := rfl

/-- C7: a candidate containing a division whose right operand evaluates to
exactly zero evaluates to `none` (no crash, no "undefined" value) and is
never among the surviving candidates from which the output is drawn — it
is dropped silently while the search over the other candidates
continues. -/
theorem solve_division_guard (digits : List ℕ) (target : ℤ)
    (e : ExpressionNode) (h : hasDivByZero e = true) :
    evalNode e = none ∧ e ∉ validTrees digits target := by
  have hn := evalNode_eq_none_of_hasDivByZero e h
  refine ⟨hn, fun hmem => ?_⟩
  obtain ⟨-, v, hv, -⟩ := eval_of_mem_validTrees hmem
  rw [hn] at hv
  exact Option.noConfusion hv

theorem solve_division_guard_witness :
    (hasDivByZero (ExpressionNode.internal Operator.divide (.leaf 5)
        (.internal Operator.subtract (.leaf 2) (.leaf 2))) = true) ∧
      evalNode (ExpressionNode.internal Operator.divide (.leaf 5)
        (.internal Operator.subtract (.leaf 2) (.leaf 2))) = none ∧
      ExpressionNode.internal Operator.divide (.leaf 5)
        (.internal Operator.subtract (.leaf 2) (.leaf 2)) ∉
          validTrees [5, 2, 2] 10 :=
  ⟨by decide, solve_division_guard [5, 2, 2] 10 _ (by decide)⟩

end MakeTen

namespace HomePage

/-- From src/pages/index.tsx (TextField onChange): the proposed value is
stored only when it matches no non-digit character and is at most six
characters long. -/
def acceptText (v : String) : Bool :=
  !(v.data.any fun c => !c.isDigit) && decide (v.length ≤ 6)

/-- From src/pages/index.tsx: the input events the Home component
handles. -/
inductive Event where
  | change (value : String)
  | keyDown (key : Char)

/-- From src/pages/index.tsx: the transition of the `text` state.  The
onChange handler stores the proposed value only when `acceptText` holds,
otherwise the state is unchanged; the onKeyDown handler never updates the
state (for the key 'e' it only calls preventDefault, suppressing the
keystroke). -/
def step : String → Event → String
  | t, .change v => if acceptText v then v else t
  | t, .keyDown _ => t

/-- The reachable values of the `text` state: the initial state is the
empty string (useState of an empty string in src/pages/index.tsx), and
every handler invocation steps the state. -/
inductive Reachable : String → Prop where
  | init : Reachable ""
  | next : ∀ {t : String} (e : Event), Reachable t → Reachable (step t e)

/-- From src/pages/index.tsx (useMemo): JavaScript `Number` applied to a
one-character string, for the digit characters that reach it. -/
def jsCharNumber (c : Char) : ℤ := (c.toNat : ℤ) - 48

/-- From src/pages/index.tsx (useMemo): the array handed to the engine is
text.split of the empty separator, mapped through `Number` — the engine is
invoked with this array for every state of `text`. -/
def engineInput (t : String) : List ℤ := t.data.map jsCharNumber

lemma acceptText_eq_true_iff (v : String) :
    acceptText v = true ↔ (∀ c ∈ v.data, c.isDigit = true) ∧ v.length ≤ 6 := by
  unfold acceptText
  simp only [Bool.and_eq_true, Bool.not_eq_true', List.any_eq_false,
    decide_eq_true_eq, Bool.not_eq_false]

lemma reachable_invariant : ∀ t : String, Reachable t →
    (∀ c ∈ t.data, c.isDigit = true) ∧ t.length ≤ 6 := by
  intro t h
  induction h with
  | init => exact ⟨by decide, by decide⟩
  | next e ht ih =>
    cases e with
    | keyDown k => exact ih
    | change v =>
      by_cases hv : acceptText v = true
      · simp only [step, if_pos hv]
        exact (acceptText_eq_true_iff v).mp hv
      · simp only [step, if_neg hv]
        exact ih

lemma toNat_bounds_of_isDigit (c : Char) (h : c.isDigit = true) :
    48 ≤ c.toNat ∧ c.toNat ≤ 57 := by
  simp only [Char.isDigit, Bool.and_eq_true, decide_eq_true_eq] at h
  exact ⟨h.1, h.2⟩

/-- C9: in every reachable state of the Home component, the `text` state
consists only of decimal digit characters and has length at most six. -/
theorem home_text_invariant (t : String) (h : Reachable t) :
    (∀ c ∈ t.data, c.isDigit = true) ∧ t.length ≤ 6 :=
  reachable_invariant t h

theorem home_text_invariant_witness :
    Reachable "12" ∧
      ((∀ c ∈ ("12" : String).data, c.isDigit = true) ∧
        ("12" : String).length ≤ 6) := by
  have h : Reachable "12" := Reachable.next (Event.change "12") Reachable.init
  exact ⟨h, home_text_invariant "12" h⟩

/-- C6 counterexample: the initial state is reachable, and there the
engine is invoked with the empty digit array, whose length lies outside
the interval from two to six — so the claim that the engine is never
invoked with a digit sequence of length outside that interval is false. -/
theorem home_engine_short_input :
    Reachable "" ∧
      ¬ (2 ≤ (engineInput "").length ∧ (engineInput "").length ≤ 6) :=
  ⟨Reachable.init, by decide⟩

/-- C6 amended: in every reachable state the array passed to the engine
has length at most six and every element is a digit value between zero and
nine — non-digit characters and over-long input never reach the engine —
but the engine is also invoked with arrays of length zero or one. -/
theorem home_engine_input_bounds (t : String) (h : Reachable t) :
    (engineInput t).length ≤ 6 ∧ ∀ x ∈ engineInput t, 0 ≤ x ∧ x ≤ 9 := by
  obtain ⟨hdig, hlen⟩ := reachable_invariant t h
  constructor
  · rw [engineInput, List.length_map]
    exact hlen
  · intro x hx
    obtain ⟨c, hc, rfl⟩ := List.mem_map.mp hx
    have hb := toNat_bounds_of_isDigit c (hdig c hc)
    unfold jsCharNumber
    omega

theorem home_engine_input_bounds_witness :
    Reachable "12" ∧
      ((engineInput "12").length ≤ 6 ∧
        ∀ x ∈ engineInput "12", 0 ≤ x ∧ x ≤ 9) := by
  have h : Reachable "12" := Reachable.next (Event.change "12") Reachable.init
  exact ⟨h, home_engine_input_bounds "12" h⟩

/-- C10: for every text state the array passed to the engine has the same
length as the text, its i-th element is the JavaScript numeric value of
the i-th character, in input order, and the empty text yields the empty
array. -/
theorem home_engine_input_pointwise (t : String) :
    (engineInput t).length = t.length ∧
      (∀ i : ℕ, (engineInput t)[i]? = (t.data[i]?).map jsCharNumber) ∧
      engineInput "" = [] := by
  refine ⟨?_, fun i => ?_, by decide⟩
  · rw [engineInput, List.length_map]
    rfl
  · rw [engineInput, List.getElem?_map]

/-- From src/pages/index.tsx: one rendered output line — a Box keyed by
the result string whose displayed content is that result string. -/
structure RenderedBox where
  key : String
  content : String

/-- From src/pages/index.tsx: the result strings are rendered by mapping
each one, in the order received, to its Box. -/
def renderResults (results : List String) : List RenderedBox :=
  results.map fun r => { key := r, content := r }

/-- C8: the presentation layer renders exactly the returned strings, one
box per string, in the order received — no reordering, omission or
addition. -/
theorem home_render_order (results : List String) :
    (renderResults results).map RenderedBox.content = results ∧
      (renderResults results).length = results.length := by
  constructor
  · rw [renderResults, List.map_map]
    exact List.map_id results
  · rw [renderResults, List.length_map]

end HomePage
